import Mathlib

set_option linter.unusedSectionVars false
set_option linter.unusedVariables false

/-!
Shallow embedding of the separate-chaining hashtable declared in
src/src/Hashtable/Hashtable.h and proofs about its iterator traversal,
insert/find/erase operations and bookkeeping invariants.

Modelling choices.  A bucket (C++ std::list of std::pair) is a Lean
list of pairs and the table (std::vector of buckets) a list of lists.
A bucket iterator pins a node of one particular list, so it is modelled
as the pair (bucket the node lives in, offset of the node); offset =
bucket length is that bucket's end sentinel.  All iterators compared in
the development are drawn from a single table state, so node identity
coincides with this pair.  The size_t counters never overflow or
underflow in any state reachable from the constructor (count always
equals the number of stored entries), so they are modelled as Nat.
The two while-loops of begin and end and the do-while scan of
operator++ walk a strictly shrinking range of bucket indices; they are
modelled with an explicit fuel argument equal to the number of indices
the loop can still inspect, which mirrors the source exactly because
each loop exits no later than when the range is exhausted.
-/

/-- A chain position (a std::list iterator into one bucket): the index of
the bucket whose node it pins, and the offset of that node in the bucket.
An offset equal to the bucket's length is that bucket's end sentinel. -/
structure EntryPos where
  bucket : Nat
  pos : Nat
deriving DecidableEq

/-- The iterator of the hashtable: the recorded bucket index (field
index_ of the source) and the chain position (field entry_). -/
structure Iter where
  index : Nat
  entry : EntryPos
deriving DecidableEq

/-- The hashtable state: fields table_, bucket_count_ and count_. -/
structure hashtable (K V : Type) where
  table : List (List (K × V))
  bucket_count : Nat
  count : Nat
deriving DecidableEq

variable {K V : Type} [DecidableEq K]

/-- The constructor hashtable(const size_t buckets): buckets empty
chains, count 0. -/
def hashtable.make (K V : Type) (buckets : Nat) : hashtable K V :=
  { table := List.replicate buckets [], bucket_count := buckets, count := 0 }

/-- Bucket access table_[index] / table_.at(index).  Out-of-range access
is undefined (resp. throwing) in the source and never reached in the
claims; the model returns the empty chain there. -/
def hashtable.bucket (ht : hashtable K V) (i : Nat) : List (K × V) :=
  ht.table.getD i []

/-- operator== of both iterator classes: entry_ == rhs.entry_, comparing
only the chain positions and ignoring the recorded bucket indices. -/
def iterEq (i j : Iter) : Bool :=
  decide (i.entry = j.entry)

/-- The descending while-loop of end() / cend(), from bucket index i
down to 0: stop at the first non-empty bucket and return its end
position; if index 0 is reached while still empty, return the end
position of the last bucket with recorded index 0. -/
def endFrom (ht : hashtable K V) : Nat → Iter
  | 0 =>
      if (ht.bucket 0).isEmpty then
        ⟨0, ⟨ht.bucket_count - 1, (ht.bucket (ht.bucket_count - 1)).length⟩⟩
      else
        ⟨0, ⟨0, (ht.bucket 0).length⟩⟩
  | i + 1 =>
      if (ht.bucket (i + 1)).isEmpty then endFrom ht i
      else ⟨i + 1, ⟨i + 1, (ht.bucket (i + 1)).length⟩⟩

/-- end(): scan backward from bucket_count - 1. -/
def hashtable.endIt (ht : hashtable K V) : Iter :=
  endFrom ht (ht.bucket_count - 1)

/-- The ascending while-loop of begin() / cbegin().  The source checks
index == bucket_count() - 1 before stepping; the fuel argument equals
bucket_count - 1 - index at every call, so fuel 0 is exactly that
check. -/
def beginFrom (ht : hashtable K V) : Nat → Nat → Iter
  | index, 0 =>
      if (ht.bucket index).isEmpty then
        ⟨index, ⟨ht.bucket_count - 1, (ht.bucket (ht.bucket_count - 1)).length⟩⟩
      else ⟨index, ⟨index, 0⟩⟩
  | index, fuel + 1 =>
      if (ht.bucket index).isEmpty then beginFrom ht (index + 1) fuel
      else ⟨index, ⟨index, 0⟩⟩

/-- begin(): scan forward from bucket 0. -/
def hashtable.beginIt (ht : hashtable K V) : Iter :=
  beginFrom ht 0 (ht.bucket_count - 1)

/-- Largest index of a non-empty bucket among 0..i, none when all of
them are empty: the bucket whose end position the backward scan of
end() stops at. -/
def lastNonempty (ht : hashtable K V) : Nat → Option Nat
  | 0 => if (ht.bucket 0).isEmpty then none else some 0
  | i + 1 =>
      if (ht.bucket (i + 1)).isEmpty then lastNonempty ht i else some (i + 1)

/-- The do-while scan of operator++: repeatedly increment the index;
on reaching bucket_count the result is some none (the operator returns
the table's end); on the first non-empty bucket the result is
some (some index).  The outer none means the fuel ran out, which never
happens when the scan starts below bucket_count with fuel
bucket_count - index, as the lemmas below establish. -/
def scanUp (ht : hashtable K V) : Nat → Nat → Option (Option Nat)
  | _, 0 => none
  | index, fuel + 1 =>
      if index + 1 = ht.bucket_count then some none
      else if (ht.bucket (index + 1)).isEmpty then scanUp ht (index + 1) fuel
      else some (some (index + 1))

/-- operator++ (prefix) of both iterator classes.  The impossible
fuel-exhaustion branch of the scan returns the iterator unchanged. -/
def inc (ht : hashtable K V) (it : Iter) : Iter :=
  if (ht.bucket it.index).isEmpty then
    match scanUp ht it.index (ht.bucket_count - it.index) with
    | some none => ht.endIt
    | some (some j) => ⟨j, ⟨j, 0⟩⟩
    | none => it
  else
    let e : EntryPos := ⟨it.entry.bucket, it.entry.pos + 1⟩
    if e = ⟨it.index, (ht.bucket it.index).length⟩ then
      match scanUp ht it.index (ht.bucket_count - it.index) with
      | some none => ht.endIt
      | some (some j) => ⟨j, ⟨j, 0⟩⟩
      | none => it
    else ⟨it.index, e⟩

/-- The duplicate-detection loop of insert: position of the first entry
of the chain whose key field compares equal to the key (the source
tests equal_to_(it->first, key)). -/
def scanChain (k : K) : List (K × V) → Option Nat
  | [] => none
  | e :: rest => if e.1 = k then some 0 else (scanChain k rest).map (· + 1)

/-- insert(key, obj): on a duplicate key return an iterator to the
existing entry and change nothing; otherwise push the new entry to the
back of the chain, increment count and return an iterator to it. -/
def hashtable.insert (hash : K → Nat) (ht : hashtable K V) (k : K) (v : V) :
    hashtable K V × Iter :=
  let index := hash k % ht.bucket_count
  let b := ht.bucket index
  match scanChain k b with
  | some i => (ht, ⟨index, ⟨index, i⟩⟩)
  | none =>
      ({ ht with table := ht.table.set index (b ++ [(k, v)]),
                 count := ht.count + 1 },
       ⟨index, ⟨index, b.length⟩⟩)

/-- The search loop of find / contains_key / erase: position of the
first entry whose key the key compares equal to (the source tests
equal_to_(key, it->first)). -/
def chainFind (k : K) : List (K × V) → Option Nat
  | [] => none
  | e :: rest => if k = e.1 then some 0 else (chainFind k rest).map (· + 1)

/-- find(key): iterator to the matching entry, or end() if absent. -/
def hashtable.find (hash : K → Nat) (ht : hashtable K V) (k : K) : Iter :=
  let index := hash k % ht.bucket_count
  match chainFind k (ht.bucket index) with
  | some i => ⟨index, ⟨index, i⟩⟩
  | none => ht.endIt

/-- The erase loop over the target chain: the source erases every entry
whose key compares equal (there is no break), decrementing count once
per removal; entries of a chain reachable from the constructor hold at
most one occurrence of any key, so at most one entry is removed there. -/
def eraseChain (k : K) : List (K × V) → List (K × V)
  | [] => []
  | e :: rest => if k = e.1 then eraseChain k rest else e :: eraseChain k rest

/-- erase(key): rebuild the target chain without the matching entries
and decrement count by the number of removals. -/
def hashtable.erase (hash : K → Nat) (ht : hashtable K V) (k : K) :
    hashtable K V :=
  let index := hash k % ht.bucket_count
  let b := ht.bucket index
  let b' := eraseChain k b
  { ht with table := ht.table.set index b',
            count := ht.count - (b.length - b'.length) }

/-- contains_key(key). -/
def hashtable.contains_key (hash : K → Nat) (ht : hashtable K V) (k : K) : Bool :=
  (ht.bucket (hash k % ht.bucket_count)).any (fun e => decide (k = e.1))

/-- load_factor(): the source divides the two size_t counters count_
and bucket_count_ before converting to double, so the quotient is the
truncated natural-number quotient.  The result is a small integer,
which the conversion to double represents exactly; it is modelled as a
rational. -/
def hashtable.load_factor (ht : hashtable K V) : ℚ :=
  ((ht.count / ht.bucket_count : Nat) : ℚ)

/-- Modelled from the spec: load_factor computed with real-number
division, the behaviour the specification requires of the operation. -/
def load_factor_spec (ht : hashtable K V) : ℚ :=
  (ht.count : ℚ) / (ht.bucket_count : ℚ)

/-- Value stored for a key in one chain (first match, as the scan of
find would dereference it). -/
def chainLookup (k : K) : List (K × V) → Option V
  | [] => none
  | e :: rest => if k = e.1 then some e.2 else chainLookup k rest

/-- Value stored for a key in the table: what dereferencing the cursor
of a successful find yields. -/
def hashtable.lookup (hash : K → Nat) (ht : hashtable K V) (k : K) : Option V :=
  chainLookup k (ht.bucket (hash k % ht.bucket_count))

/-- Dereference a chain position: the entry the iterator's operator*
returns, none at an end sentinel. -/
def derefPos (ht : hashtable K V) (e : EntryPos) : Option (K × V) :=
  (ht.bucket e.bucket)[e.pos]?

/-- Sum of the chain lengths of all buckets. -/
def sumLens (ht : hashtable K V) : Nat :=
  ((List.range ht.bucket_count).map (fun b => (ht.bucket b).length)).sum

/-- The chain positions of one bucket, in chain order. -/
def bucketPositions (ht : hashtable K V) (b : Nat) : List EntryPos :=
  (List.range (ht.bucket b).length).map (fun p => ⟨b, p⟩)

/-- Every chain position of the table, in bucket-then-chain order. -/
def allPositions (ht : hashtable K V) : List EntryPos :=
  (List.range ht.bucket_count).flatMap (bucketPositions ht)

/-- Every stored entry, in bucket-then-chain order. -/
def allEntries (ht : hashtable K V) : List (K × V) :=
  (List.range ht.bucket_count).flatMap (fun b => ht.bucket b)

/-- The chain positions of the buckets from index b upward, in
bucket-then-chain order. -/
def tailPositions (ht : hashtable K V) (b : Nat) : List EntryPos :=
  (List.range' b (ht.bucket_count - b)).flatMap (bucketPositions ht)

/-- The chain positions an iteration starting at position (b, p) must
still visit: the rest of bucket b from offset p, then all positions of
the buckets after b. -/
def posFrom (ht : hashtable K V) (b p : Nat) : List EntryPos :=
  ((List.range' p ((ht.bucket b).length - p)).map (fun q => ⟨b, q⟩))
    ++ tailPositions ht (b + 1)

/-- The chain positions visited by the canonical iteration loop
for (it = first; it != end(); ++it), running for at most fuel steps. -/
def visited (ht : hashtable K V) : Nat → Iter → List EntryPos
  | 0, _ => []
  | fuel + 1, it =>
      if iterEq it ht.endIt then []
      else it.entry :: visited ht fuel (inc ht it)

/-- Structural well-formedness the constructor establishes and all
operations preserve: the vector holds bucket_count_ chains, there is at
least one bucket, and count_ equals the number of stored entries. -/
def WF (ht : hashtable K V) : Prop :=
  ht.table.length = ht.bucket_count ∧ 1 ≤ ht.bucket_count ∧
    ht.count = sumLens ht

/-- Tables reachable from the constructor (with a positive bucket
count) by insert and erase, for one fixed hash function. -/
inductive Reachable (hash : K → Nat) : hashtable K V → Prop where
  | make (buckets : Nat) (h : 1 ≤ buckets) :
      Reachable hash (hashtable.make K V buckets)
  | insert (ht : hashtable K V) (k : K) (v : V) :
      Reachable hash ht → Reachable hash (hashtable.insert hash ht k v).1
  | erase (ht : hashtable K V) (k : K) :
      Reachable hash ht → Reachable hash (hashtable.erase hash ht k)

/-- The full invariant of reachable tables: well-formedness, every
entry sits in the bucket its key hashes to, and no chain repeats a
key. -/
def TableInv (hash : K → Nat) (ht : hashtable K V) : Prop :=
  WF ht ∧
    (∀ b, b < ht.bucket_count → ∀ e ∈ ht.bucket b,
        hash e.1 % ht.bucket_count = b) ∧
    (∀ b, b < ht.bucket_count → ((ht.bucket b).map Prod.fst).Nodup)

/-- Hash function used by the concrete instances below. -/
def exHash : Nat → Nat := fun n => n

/-- A concrete table: bucket_count 4, keys 1 and 5 colliding in bucket
1, key 3 alone in bucket 3, so both a collision chain and a gap of
empty buckets occur. -/
def exTable : hashtable Nat Nat :=
  ((((hashtable.make Nat Nat 4).insert exHash 1 10).1.insert
      exHash 5 20).1.insert exHash 3 30).1

lemma getD_set_self {α : Type _} (l : List α) (i : Nat) (x d : α)
    (h : i < l.length) : (l.set i x).getD i d = x := by
  simp [List.getD_eq_getElem?_getD, List.getElem?_set_self h]

lemma getD_set_ne {α : Type _} (l : List α) (i j : Nat) (x d : α)
    (h : i ≠ j) : (l.set i x).getD j d = l.getD j d := by
  simp [List.getD_eq_getElem?_getD, List.getElem?_set_ne h]

lemma set_getD_self {α : Type _} :
    ∀ (l : List α) (i : Nat) (d : α), i < l.length →
      l.set i (l.getD i d) = l
  | [], i, d, h => by simp at h
  | x :: xs, 0, d, _ => by simp [List.getD]
  | x :: xs, i + 1, d, h => by
      simpa [List.getD] using set_getD_self xs i d (by simpa using h)

lemma bucket_make (n i : Nat) : (hashtable.make K V n).bucket i = [] := by
  simp only [hashtable.make, hashtable.bucket, List.getD_eq_getElem?_getD,
    List.getElem?_replicate]
  split <;> rfl

lemma scanChain_eq_chainFind (k : K) (b : List (K × V)) :
    scanChain k b = chainFind k b := by
  induction b with
  | nil => rfl
  | cons e rest ih =>
      by_cases h : e.1 = k
      · simp only [scanChain, chainFind]
        rw [if_pos h, if_pos h.symm]
      · simp only [scanChain, chainFind]
        rw [if_neg h, if_neg (fun hh => h hh.symm), ih]

lemma chainFind_eq_none_iff (k : K) (b : List (K × V)) :
    chainFind k b = none ↔ ∀ e ∈ b, ¬ k = e.1 := by
  induction b with
  | nil => simp [chainFind]
  | cons e rest ih => by_cases h : k = e.1 <;> simp [chainFind, h, ih]

lemma chainLookup_eq_none_iff (k : K) (b : List (K × V)) :
    chainLookup k b = none ↔ ∀ e ∈ b, ¬ k = e.1 := by
  induction b with
  | nil => simp [chainLookup]
  | cons e rest ih => by_cases h : k = e.1 <;> simp [chainLookup, h, ih]

lemma chainLookup_some_decomp (k : K) (v : V) :
    ∀ b : List (K × V), chainLookup k b = some v →
      ∃ l1 l2, b = l1 ++ (k, v) :: l2 ∧ ∀ e ∈ l1, ¬ k = e.1
  | [], h => by simp [chainLookup] at h
  | e :: rest, h => by
      by_cases hk : k = e.1
      · refine ⟨[], rest, ?_, by simp⟩
        simp only [chainLookup, if_pos hk, Option.some.injEq] at h
        obtain ⟨e1, e2⟩ := e
        simp_all
      · simp only [chainLookup, if_neg hk] at h
        obtain ⟨l1, l2, hb, hl1⟩ := chainLookup_some_decomp k v rest h
        exact ⟨e :: l1, l2, by simp [hb], by simpa [hk] using hl1⟩

lemma chainFind_of_lookup_some (k : K) (v : V) :
    ∀ b : List (K × V), chainLookup k b = some v →
      ∃ i, chainFind k b = some i ∧ b[i]? = some (k, v)
  | [], h => by simp [chainLookup] at h
  | e :: rest, h => by
      by_cases hk : k = e.1
      · refine ⟨0, by simp [chainFind, hk], ?_⟩
        simp only [chainLookup, if_pos hk, Option.some.injEq] at h
        obtain ⟨e1, e2⟩ := e
        simp_all
      · simp only [chainLookup, if_neg hk] at h
        obtain ⟨i, hf, hg⟩ := chainFind_of_lookup_some k v rest h
        exact ⟨i + 1, by simp [chainFind, hk, hf], by simpa using hg⟩

lemma chainLookup_append_new (k : K) (v : V) (b : List (K × V))
    (h : chainLookup k b = none) :
    chainLookup k (b ++ [(k, v)]) = some v := by
  induction b with
  | nil => simp [chainLookup]
  | cons e rest ih =>
      by_cases hk : k = e.1 <;> simp_all [chainLookup, hk]

lemma eraseChain_append (k : K) (a b : List (K × V)) :
    eraseChain k (a ++ b) = eraseChain k a ++ eraseChain k b := by
  induction a with
  | nil => rfl
  | cons e rest ih =>
      simp only [List.cons_append, eraseChain, List.append_eq]
      by_cases hk : k = e.1
      · rw [if_pos hk, if_pos hk, ih]
      · rw [if_neg hk, if_neg hk, ih, List.cons_append]

lemma eraseChain_of_no_match (k : K) (b : List (K × V))
    (h : ∀ e ∈ b, ¬ k = e.1) : eraseChain k b = b := by
  induction b with
  | nil => rfl
  | cons e rest ih => simp_all [eraseChain]

lemma eraseChain_eq_filter (k : K) (b : List (K × V)) :
    eraseChain k b = b.filter (fun e => ! decide (k = e.1)) := by
  induction b with
  | nil => rfl
  | cons e rest ih =>
      simp only [eraseChain, List.filter_cons]
      by_cases hk : k = e.1
      · rw [if_pos hk, ih]
        simp [decide_eq_true hk]
      · rw [if_neg hk, ih]
        simp [decide_eq_false hk]

lemma chainLookup_eraseChain_self (k : K) (b : List (K × V)) :
    chainLookup k (eraseChain k b) = none := by
  induction b with
  | nil => rfl
  | cons e rest ih =>
      simp only [eraseChain]
      by_cases hk : k = e.1
      · rw [if_pos hk]
        exact ih
      · rw [if_neg hk]
        simp only [chainLookup]
        rw [if_neg hk]
        exact ih

lemma chainLookup_eraseChain_ne (k k' : K) (hne : ¬ k' = k)
    (b : List (K × V)) :
    chainLookup k' (eraseChain k b) = chainLookup k' b := by
  induction b with
  | nil => rfl
  | cons e rest ih =>
      simp only [eraseChain]
      by_cases hk : k = e.1
      · have hk' : ¬ k' = e.1 := fun h => hne (h.trans hk.symm)
        rw [if_pos hk, ih]
        simp only [chainLookup]
        rw [if_neg hk']
      · rw [if_neg hk]
        simp only [chainLookup]
        by_cases hk' : k' = e.1
        · rw [if_pos hk', if_pos hk']
        · rw [if_neg hk', if_neg hk', ih]

lemma endFrom_eq (ht : hashtable K V) (i : Nat) :
    endFrom ht i =
      match lastNonempty ht i with
      | none =>
          ⟨0, ⟨ht.bucket_count - 1, (ht.bucket (ht.bucket_count - 1)).length⟩⟩
      | some j => ⟨j, ⟨j, (ht.bucket j).length⟩⟩ := by
  induction i with
  | zero => by_cases h : (ht.bucket 0).isEmpty <;> simp [endFrom, lastNonempty, h]
  | succ i ih =>
      by_cases h : (ht.bucket (i + 1)).isEmpty <;>
        simp [endFrom, lastNonempty, h, ih]

lemma lastNonempty_eq_none (ht : hashtable K V) :
    ∀ i, lastNonempty ht i = none ↔ ∀ j, j ≤ i → (ht.bucket j).isEmpty := by
  intro i
  induction i with
  | zero =>
      by_cases h : (ht.bucket 0).isEmpty
      · simp only [lastNonempty, if_pos h]
        constructor
        · intro _ j hj
          have hj0 : j = 0 := Nat.le_zero.mp hj
          subst hj0
          exact h
        · intro _
          trivial
      · simp only [lastNonempty, if_neg h]
        constructor
        · intro hc
          cases hc
        · intro H
          exact absurd (H 0 (Nat.le_refl 0)) h
  | succ i ih =>
      by_cases h : (ht.bucket (i + 1)).isEmpty
      · simp only [lastNonempty, if_pos h]
        rw [ih]
        constructor
        · intro H j hj
          rcases Nat.eq_or_lt_of_le hj with h1 | h1
          · subst h1
            exact h
          · exact H j (Nat.lt_succ_iff.mp h1)
        · intro H j hj
          exact H j (Nat.le_succ_of_le hj)
      · simp only [lastNonempty, if_neg h]
        constructor
        · intro hc
          cases hc
        · intro H
          exact absurd (H (i + 1) (Nat.le_refl _)) h

lemma lastNonempty_eq_some (ht : hashtable K V) :
    ∀ i j, lastNonempty ht i = some j →
      ¬(ht.bucket j).isEmpty = true ∧ j ≤ i ∧
        ∀ l, j < l → l ≤ i → (ht.bucket l).isEmpty := by
  intro i
  induction i with
  | zero =>
      intro j hj
      by_cases h : (ht.bucket 0).isEmpty
      · simp [lastNonempty, h] at hj
      · simp only [lastNonempty, if_neg h, Option.some.injEq] at hj
        subst hj
        exact ⟨h, Nat.le_refl 0, fun l hl hl2 => absurd (Nat.lt_of_lt_of_le hl hl2)
          (Nat.lt_irrefl 0)⟩
  | succ i ih =>
      intro j hj
      by_cases h : (ht.bucket (i + 1)).isEmpty
      · simp only [lastNonempty, if_pos h] at hj
        obtain ⟨h1, h2, h3⟩ := ih j hj
        refine ⟨h1, Nat.le_succ_of_le h2, fun l hl hl2 => ?_⟩
        rcases Nat.eq_or_lt_of_le hl2 with he | hlt
        · rw [he]
          exact h
        · exact h3 l hl (Nat.lt_succ_iff.mp hlt)
      · simp only [lastNonempty, if_neg h, Option.some.injEq] at hj
        subst hj
        exact ⟨h, Nat.le_refl _, fun l hl hl2 => absurd (Nat.lt_of_lt_of_le hl hl2)
          (Nat.lt_irrefl _)⟩

lemma lastNonempty_mk (ht : hashtable K V) :
    ∀ i j, j ≤ i → ¬(ht.bucket j).isEmpty = true →
      (∀ l, j < l → l ≤ i → (ht.bucket l).isEmpty) →
      lastNonempty ht i = some j := by
  intro i
  induction i with
  | zero =>
      intro j hj hne _
      have hj0 : j = 0 := Nat.le_zero.mp hj
      subst hj0
      simp [lastNonempty, hne]
  | succ i ih =>
      intro j hj hne hafter
      by_cases h : (ht.bucket (i + 1)).isEmpty
      · have hj' : j ≤ i := by
          rcases Nat.eq_or_lt_of_le hj with he | hlt
          · subst he
            exact absurd h hne
          · exact Nat.lt_succ_iff.mp hlt
        simp only [lastNonempty, if_pos h]
        exact ih j hj' hne (fun l hl hl2 => hafter l hl (Nat.le_succ_of_le hl2))
      · have hj1 : j = i + 1 := by
          by_contra hne2
          have hj' : j < i + 1 := Nat.lt_of_le_of_ne hj hne2
          exact h (hafter (i + 1) hj' (Nat.le_refl _))
        subst hj1
        simp [lastNonempty, h]

lemma beginFrom_spec (ht : hashtable K V) :
    ∀ fuel index,
      ((∀ l, index ≤ l → l ≤ index + fuel → (ht.bucket l).isEmpty) ∧
        beginFrom ht index fuel =
          ⟨index + fuel,
            ⟨ht.bucket_count - 1, (ht.bucket (ht.bucket_count - 1)).length⟩⟩) ∨
      (∃ j, index ≤ j ∧ j ≤ index + fuel ∧ ¬(ht.bucket j).isEmpty = true ∧
        (∀ l, index ≤ l → l < j → (ht.bucket l).isEmpty) ∧
        beginFrom ht index fuel = ⟨j, ⟨j, 0⟩⟩) := by
  intro fuel
  induction fuel with
  | zero =>
      intro index
      by_cases h : (ht.bucket index).isEmpty
      · left
        refine ⟨fun l hl hl2 => ?_, by simp [beginFrom, h]⟩
        have hli : l = index := by omega
        subst hli
        exact h
      · right
        exact ⟨index, Nat.le_refl _, by omega, h,
          fun l hl hl2 => False.elim (by omega), by simp [beginFrom, h]⟩
  | succ fuel ih =>
      intro index
      by_cases h : (ht.bucket index).isEmpty
      · rcases ih (index + 1) with ⟨H, hb⟩ | ⟨j, hj1, hj2, hj3, hj4, hb⟩
        · left
          refine ⟨fun l hl hl2 => ?_, ?_⟩
          · rcases Nat.eq_or_lt_of_le hl with he | hlt
            · subst he
              exact h
            · exact H l hlt (by omega)
          · simp only [beginFrom, if_pos h]
            rw [hb]
            have harith : index + 1 + fuel = index + (fuel + 1) := by omega
            rw [harith]
        · right
          refine ⟨j, by omega, by omega, hj3, fun l hl hl2 => ?_, ?_⟩
          · rcases Nat.eq_or_lt_of_le hl with he | hlt
            · subst he
              exact h
            · exact hj4 l hlt hl2
          · simp only [beginFrom, if_pos h]
            exact hb
      · right
        exact ⟨index, Nat.le_refl _, by omega, h,
          fun l hl hl2 => False.elim (by omega), by simp [beginFrom, h]⟩

lemma scanUp_spec (ht : hashtable K V) :
    ∀ fuel index, index + fuel = ht.bucket_count → index < ht.bucket_count →
      (scanUp ht index fuel = some none ∧
        ∀ l, index < l → l < ht.bucket_count → (ht.bucket l).isEmpty) ∨
      (∃ j, scanUp ht index fuel = some (some j) ∧ index < j ∧
        j < ht.bucket_count ∧ ¬(ht.bucket j).isEmpty = true ∧
        ∀ l, index < l → l < j → (ht.bucket l).isEmpty) := by
  intro fuel
  induction fuel with
  | zero =>
      intro index he hlt
      omega
  | succ fuel ih =>
      intro index he hlt
      by_cases hbc : index + 1 = ht.bucket_count
      · left
        exact ⟨by simp [scanUp, hbc], fun l hl hl2 => False.elim (by omega)⟩
      · by_cases h : (ht.bucket (index + 1)).isEmpty
        · rcases ih (index + 1) (by omega) (by omega) with ⟨hs, H⟩ |
            ⟨j, hs, hj1, hj2, hj3, hj4⟩
          · left
            refine ⟨?_, fun l hl hl2 => ?_⟩
            · simp only [scanUp, if_neg hbc, if_pos h]
              exact hs
            · rcases Nat.eq_or_lt_of_le hl with he2 | hlt2
              · rw [← he2]
                exact h
              · exact H l hlt2 hl2
          · right
            refine ⟨j, ?_, by omega, hj2, hj3, fun l hl hl2 => ?_⟩
            · simp only [scanUp, if_neg hbc, if_pos h]
              exact hs
            · rcases Nat.eq_or_lt_of_le hl with he2 | hlt2
              · rw [← he2]
                exact h
              · exact hj4 l hlt2 hl2
        · right
          exact ⟨index + 1, by simp [scanUp, hbc, h], by omega, by omega, h,
            fun l hl hl2 => False.elim (by omega)⟩

lemma visited_endIt (ht : hashtable K V) :
    ∀ fuel, visited ht fuel ht.endIt = []
  | 0 => rfl
  | fuel + 1 => by simp [visited, iterEq]

/-- C3: the claim states load_factor() returns size divided by
bucket_count with real-number division (0.25 for one entry in four
buckets).  The source divides the two size_t counters, truncating to
zero, before converting to double: at a table with one entry and four
buckets the code yields 0 while the spec-modelled real division yields
1/4. -/
theorem C3_load_factor_truncates :
    ((hashtable.make ℕ ℕ 4).insert (fun n => n) 1 5).1.load_factor = 0 ∧
    load_factor_spec ((hashtable.make ℕ ℕ 4).insert (fun n => n) 1 5).1
      = 1 / 4 ∧
    ((hashtable.make ℕ ℕ 4).insert (fun n => n) 1 5).1.load_factor ≠
      load_factor_spec ((hashtable.make ℕ ℕ 4).insert (fun n => n) 1 5).1 := by
  refine ⟨?_, ?_, ?_⟩ <;>
    norm_num [hashtable.load_factor, load_factor_spec, hashtable.insert,
      hashtable.make, hashtable.bucket, scanChain]

/-- C7: on a table of size 0 with every bucket empty and bucket_count
at least 1, begin() equals end() under the iterator equality. -/
theorem C7_empty_begin_eq_end (ht : hashtable K V)
    (hbc : 1 ≤ ht.bucket_count)
    (hempty : ∀ b, b < ht.bucket_count → ht.bucket b = [])
    (hcount : ht.count = 0) :
    iterEq ht.beginIt ht.endIt = true := by
  have hemptyB : ∀ j, j ≤ ht.bucket_count - 1 → (ht.bucket j).isEmpty :=
    fun j hj => List.isEmpty_iff.mpr (hempty j (by omega))
  have hend : ht.endIt =
      ⟨0, ⟨ht.bucket_count - 1, (ht.bucket (ht.bucket_count - 1)).length⟩⟩ := by
    show endFrom ht (ht.bucket_count - 1) = _
    rw [endFrom_eq, (lastNonempty_eq_none ht _).mpr hemptyB]
  have hbegin : ht.beginIt =
      ⟨ht.bucket_count - 1,
        ⟨ht.bucket_count - 1, (ht.bucket (ht.bucket_count - 1)).length⟩⟩ := by
    show beginFrom ht 0 (ht.bucket_count - 1) = _
    rcases beginFrom_spec ht (ht.bucket_count - 1) 0 with ⟨_, hb⟩ |
      ⟨j, _, hj2, hj3, _, _⟩
    · rw [hb]
      have h0 : 0 + (ht.bucket_count - 1) = ht.bucket_count - 1 := by omega
      rw [h0]
    · exact absurd (hemptyB j (by omega)) hj3
  rw [hbegin, hend]
  simp [iterEq]

/-- C7 witness: a freshly constructed table with three buckets. -/
theorem C7_empty_begin_eq_end_witness :
    (1 ≤ (hashtable.make ℕ ℕ 3).bucket_count ∧
      (∀ b, b < (hashtable.make ℕ ℕ 3).bucket_count →
        (hashtable.make ℕ ℕ 3).bucket b = []) ∧
      (hashtable.make ℕ ℕ 3).count = 0) ∧
    iterEq (hashtable.make ℕ ℕ 3).beginIt (hashtable.make ℕ ℕ 3).endIt
      = true :=
  ⟨⟨by decide, by decide, by decide⟩,
    C7_empty_begin_eq_end _ (by decide) (by decide) (by decide)⟩

/-- C8: iterator equality holds exactly when the underlying chain
positions agree, regardless of the recorded bucket indices; on an empty
two-bucket table, begin() and end() record different bucket indices yet
compare equal. -/
theorem C8_iterator_equality_ignores_index :
    (∀ i j : Iter, iterEq i j = true ↔ i.entry = j.entry) ∧
    (hashtable.make ℕ ℕ 2).beginIt.index ≠ (hashtable.make ℕ ℕ 2).endIt.index ∧
    iterEq (hashtable.make ℕ ℕ 2).beginIt (hashtable.make ℕ ℕ 2).endIt
      = true := by
  refine ⟨fun i j => ?_, by decide, by decide⟩
  simp [iterEq]

/-- C10: advancing the end() cursor of an all-empty table terminates
because the forward scan exits through its index-equals-bucket_count
check (result some none, never the fuel-exhaustion marker), and the
resulting cursor is end() again. -/
theorem C10_advance_of_end_terminates (ht : hashtable K V)
    (hbc : 1 ≤ ht.bucket_count)
    (hempty : ∀ b, b < ht.bucket_count → ht.bucket b = []) :
    scanUp ht ht.endIt.index (ht.bucket_count - ht.endIt.index) = some none ∧
    inc ht ht.endIt = ht.endIt := by
  have hemptyB : ∀ j, j ≤ ht.bucket_count - 1 → (ht.bucket j).isEmpty :=
    fun j hj => List.isEmpty_iff.mpr (hempty j (by omega))
  have hend : ht.endIt =
      ⟨0, ⟨ht.bucket_count - 1, (ht.bucket (ht.bucket_count - 1)).length⟩⟩ := by
    show endFrom ht (ht.bucket_count - 1) = _
    rw [endFrom_eq, (lastNonempty_eq_none ht _).mpr hemptyB]
  have hscan : scanUp ht 0 ht.bucket_count = some none := by
    rcases scanUp_spec ht ht.bucket_count 0 (by omega) (by omega) with ⟨hs, _⟩ |
      ⟨j, _, hj1, hj2, hj3, _⟩
    · exact hs
    · exact absurd (hemptyB j (by omega)) hj3
  have h0 : (ht.bucket 0).isEmpty := hemptyB 0 (by omega)
  constructor
  · rw [hend]
    show scanUp ht 0 (ht.bucket_count - 0) = some none
    rw [Nat.sub_zero]
    exact hscan
  · rw [hend]
    show inc ht ⟨0, ⟨ht.bucket_count - 1, (ht.bucket (ht.bucket_count - 1)).length⟩⟩ = _
    simp only [inc]
    rw [if_pos h0, Nat.sub_zero, hscan]
    exact hend

/-- C10 witness: a freshly constructed table with three buckets. -/
theorem C10_advance_of_end_terminates_witness :
    (1 ≤ (hashtable.make ℕ ℕ 3).bucket_count ∧
      (∀ b, b < (hashtable.make ℕ ℕ 3).bucket_count →
        (hashtable.make ℕ ℕ 3).bucket b = [])) ∧
    (scanUp (hashtable.make ℕ ℕ 3) (hashtable.make ℕ ℕ 3).endIt.index
        ((hashtable.make ℕ ℕ 3).bucket_count -
          (hashtable.make ℕ ℕ 3).endIt.index) = some none ∧
      inc (hashtable.make ℕ ℕ 3) (hashtable.make ℕ ℕ 3).endIt
        = (hashtable.make ℕ ℕ 3).endIt) :=
  ⟨⟨by decide, by decide⟩,
    C10_advance_of_end_terminates _ (by decide) (by decide)⟩

/-- C5: erasing an absent key leaves the whole table state unchanged:
same buckets, same entries, same count. -/
theorem C5_erase_absent_noop (hash : K → Nat) (ht : hashtable K V) (k : K)
    (hlen : ht.table.length = ht.bucket_count) (hbc : 1 ≤ ht.bucket_count)
    (habsent : ht.contains_key hash k = false) :
    ht.erase hash k = ht := by
  have hno : ∀ e ∈ ht.bucket (hash k % ht.bucket_count), ¬ k = e.1 := by
    intro e he
    have h2 := List.any_eq_false.mp habsent e he
    simpa using h2
  have herase : eraseChain k (ht.bucket (hash k % ht.bucket_count)) =
      ht.bucket (hash k % ht.bucket_count) := eraseChain_of_no_match _ _ hno
  have hidx : hash k % ht.bucket_count < ht.table.length := by
    rw [hlen]
    exact Nat.mod_lt _ (by omega)
  simp only [hashtable.erase, herase, Nat.sub_self, Nat.sub_zero]
  have hset : ht.table.set (hash k % ht.bucket_count)
      (ht.bucket (hash k % ht.bucket_count)) = ht.table := by
    simp only [hashtable.bucket]
    exact set_getD_self _ _ _ hidx
  rw [hset]

/-- C5 witness: erasing the absent key 2 from the concrete table. -/
theorem C5_erase_absent_noop_witness :
    (exTable.table.length = exTable.bucket_count ∧
      1 ≤ exTable.bucket_count ∧
      exTable.contains_key exHash 2 = false) ∧
    exTable.erase exHash 2 = exTable :=
  ⟨⟨by decide, by decide, by decide⟩,
    C5_erase_absent_noop exHash exTable 2 (by decide) (by decide) (by decide)⟩

/-- C2: inserting a key that is already present with value v0 changes
nothing at all (in particular the count), returns a cursor that
dereferences to the existing entry (k, v0), and a subsequent find still
yields v0. -/
theorem C2_insert_duplicate_keeps_old (hash : K → Nat) (ht : hashtable K V)
    (k : K) (v0 v1 : V) (hfound : ht.lookup hash k = some v0) :
    (ht.insert hash k v1).1 = ht ∧
    (ht.insert hash k v1).1.count = ht.count ∧
    derefPos ht (ht.insert hash k v1).2.entry = some (k, v0) ∧
    (ht.insert hash k v1).1.lookup hash k = some v0 := by
  have hfound' : chainLookup k (ht.bucket (hash k % ht.bucket_count))
      = some v0 := hfound
  obtain ⟨i, hf, hg⟩ := chainFind_of_lookup_some k v0 _ hfound'
  have hs : scanChain k (ht.bucket (hash k % ht.bucket_count)) = some i := by
    rw [scanChain_eq_chainFind]
    exact hf
  simp only [hashtable.insert, hs]
  exact ⟨trivial, trivial, hg, hfound⟩

/-- C2 witness: re-inserting key 1 (stored value 10) with value 99 in
the concrete table. -/
theorem C2_insert_duplicate_keeps_old_witness :
    exTable.lookup exHash 1 = some 10 ∧
    ((exTable.insert exHash 1 99).1 = exTable ∧
      (exTable.insert exHash 1 99).1.count = exTable.count ∧
      derefPos exTable (exTable.insert exHash 1 99).2.entry = some (1, 10) ∧
      (exTable.insert exHash 1 99).1.lookup exHash 1 = some 10) :=
  ⟨by decide, C2_insert_duplicate_keeps_old exHash exTable 1 10 99 (by decide)⟩

/-- C6: inserting an absent key appends the entry to the tail of the
chain at index hash k mod bucket_count, leaves all other buckets
unchanged, increments the count by one, returns a cursor to the new
entry, and a subsequent find yields the new value. -/
theorem C6_insert_new_key (hash : K → Nat) (ht : hashtable K V) (k : K)
    (v : V) (hlen : ht.table.length = ht.bucket_count)
    (hbc : 1 ≤ ht.bucket_count) (habsent : ht.lookup hash k = none) :
    (ht.insert hash k v).1.bucket (hash k % ht.bucket_count)
        = ht.bucket (hash k % ht.bucket_count) ++ [(k, v)] ∧
    (∀ j, j ≠ hash k % ht.bucket_count →
        (ht.insert hash k v).1.bucket j = ht.bucket j) ∧
    (ht.insert hash k v).1.count = ht.count + 1 ∧
    (ht.insert hash k v).2 =
      ⟨hash k % ht.bucket_count,
        ⟨hash k % ht.bucket_count,
          (ht.bucket (hash k % ht.bucket_count)).length⟩⟩ ∧
    derefPos (ht.insert hash k v).1 (ht.insert hash k v).2.entry
        = some (k, v) ∧
    (ht.insert hash k v).1.lookup hash k = some v := by
  have habsent' : chainLookup k (ht.bucket (hash k % ht.bucket_count))
      = none := habsent
  have hs : scanChain k (ht.bucket (hash k % ht.bucket_count)) = none := by
    rw [scanChain_eq_chainFind]
    exact (chainFind_eq_none_iff _ _).mpr
      ((chainLookup_eq_none_iff _ _).mp habsent')
  have hidx : hash k % ht.bucket_count < ht.table.length := by
    rw [hlen]
    exact Nat.mod_lt _ (by omega)
  simp only [hashtable.insert, hs]
  refine ⟨?_, ?_, trivial, trivial, ?_, ?_⟩
  · show (ht.table.set (hash k % ht.bucket_count)
        (ht.bucket (hash k % ht.bucket_count) ++ [(k, v)])).getD
        (hash k % ht.bucket_count) [] = _
    exact getD_set_self _ _ _ _ hidx
  · intro j hj
    show (ht.table.set (hash k % ht.bucket_count)
        (ht.bucket (hash k % ht.bucket_count) ++ [(k, v)])).getD j [] = _
    exact getD_set_ne _ _ _ _ _ (fun h => hj h.symm)
  · show ((ht.table.set (hash k % ht.bucket_count)
        (ht.bucket (hash k % ht.bucket_count) ++ [(k, v)])).getD
        (hash k % ht.bucket_count) [])[
          (ht.bucket (hash k % ht.bucket_count)).length]? = _
    rw [getD_set_self _ _ _ _ hidx]
    exact List.getElem?_concat_length _ _
  · show chainLookup k ((ht.table.set (hash k % ht.bucket_count)
        (ht.bucket (hash k % ht.bucket_count) ++ [(k, v)])).getD
        (hash k % ht.bucket_count) []) = some v
    rw [getD_set_self _ _ _ _ hidx]
    exact chainLookup_append_new k v _ habsent'

/-- C6 witness: inserting the absent key 7 (bucket 3, already holding
key 3) into the concrete table. -/
theorem C6_insert_new_key_witness :
    (exTable.table.length = exTable.bucket_count ∧ 1 ≤ exTable.bucket_count ∧
      exTable.lookup exHash 7 = none) ∧
    ((exTable.insert exHash 7 70).1.bucket (exHash 7 % exTable.bucket_count)
        = exTable.bucket (exHash 7 % exTable.bucket_count) ++ [(7, 70)] ∧
      (∀ j, j ≠ exHash 7 % exTable.bucket_count →
        (exTable.insert exHash 7 70).1.bucket j = exTable.bucket j) ∧
      (exTable.insert exHash 7 70).1.count = exTable.count + 1 ∧
      (exTable.insert exHash 7 70).2 =
        ⟨exHash 7 % exTable.bucket_count,
          ⟨exHash 7 % exTable.bucket_count,
            (exTable.bucket (exHash 7 % exTable.bucket_count)).length⟩⟩ ∧
      derefPos (exTable.insert exHash 7 70).1
          (exTable.insert exHash 7 70).2.entry = some (7, 70) ∧
      (exTable.insert exHash 7 70).1.lookup exHash 7 = some 70) :=
  ⟨⟨by decide, by decide, by decide⟩,
    C6_insert_new_key exHash exTable 7 70 (by decide) (by decide) (by decide)⟩

lemma bucket_length_le_sumLens (ht : hashtable K V) (i : Nat)
    (hi : i < ht.bucket_count) : (ht.bucket i).length ≤ sumLens ht := by
  have hmem : (ht.bucket i).length ∈
      (List.range ht.bucket_count).map (fun b => (ht.bucket b).length) :=
    List.mem_map.mpr ⟨i, List.mem_range.mpr hi, rfl⟩
  exact List.single_le_sum (fun x _ => Nat.zero_le x) _ hmem


lemma sum_getD_range {α : Type _} :
    ∀ l : List (List α),
      ((List.range l.length).map (fun i => (l.getD i []).length)).sum
        = (l.map List.length).sum
  | [] => rfl
  | y :: ys => by
      rw [List.length_cons, List.range_succ_eq_map]
      simp only [List.map_cons, List.map_map, List.sum_cons]
      have hcomp :
          ((fun i => ((y :: ys).getD i []).length) ∘ Nat.succ)
            = fun i => (ys.getD i []).length := by
        funext i
        simp [List.getD]
      rw [hcomp, sum_getD_range ys]
      simp [List.getD]

lemma sum_map_set {α : Type _} :
    ∀ (l : List (List α)) (i : Nat) (x : List α), i < l.length →
      ((l.set i x).map List.length).sum + (l.getD i []).length
        = (l.map List.length).sum + x.length
  | [], i, x, h => absurd h (by simp)
  | y :: ys, 0, x, _ => by
      simp [List.getD]
      omega
  | y :: ys, i + 1, x, h => by
      have hrec := sum_map_set ys i x (by simpa using h)
      simp only [List.set_cons_succ, List.map_cons, List.sum_cons, List.getD,
        List.get?_cons_succ]
      have hrec' := hrec
      simp only [List.getD] at hrec'
      omega

lemma sumLens_eq_table_sum (ht : hashtable K V)
    (hlen : ht.table.length = ht.bucket_count) :
    sumLens ht = (ht.table.map List.length).sum := by
  unfold sumLens
  rw [← hlen]
  exact sum_getD_range ht.table

lemma sum_length_replicate_nil {α : Type _} :
    ∀ n, ((List.replicate n ([] : List α)).map List.length).sum = 0
  | 0 => rfl
  | n + 1 => by
      rw [List.replicate_succ]
      simp [sum_length_replicate_nil n]

lemma tableInv_make (hash : K → Nat) (buckets : Nat) (hb : 1 ≤ buckets) :
    TableInv hash (hashtable.make K V buckets) := by
  refine ⟨⟨by simp [hashtable.make], hb, ?_⟩, ?_, ?_⟩
  · show (0 : Nat) = sumLens (hashtable.make K V buckets)
    rw [sumLens_eq_table_sum _ (by simp [hashtable.make])]
    show 0 = ((List.replicate buckets ([] : List (K × V))).map List.length).sum
    exact (sum_length_replicate_nil buckets).symm
  · intro b hb2 e he
    rw [bucket_make] at he
    cases he
  · intro b hb2
    rw [bucket_make]
    simp

lemma eraseChain_sublist (k : K) (b : List (K × V)) :
    (eraseChain k b).Sublist b := by
  rw [eraseChain_eq_filter]
  exact List.filter_sublist b

lemma tableInv_insert (hash : K → Nat) (ht : hashtable K V) (k : K) (v : V)
    (hinv : TableInv hash ht) : TableInv hash (ht.insert hash k v).1 := by
  obtain ⟨⟨hlen, hbc, hsum⟩, hplace, hnodup⟩ := hinv
  cases hscan : scanChain k (ht.bucket (hash k % ht.bucket_count)) with
  | some i =>
      simp only [hashtable.insert, hscan]
      exact ⟨⟨hlen, hbc, hsum⟩, hplace, hnodup⟩
  | none =>
      have hidx : hash k % ht.bucket_count < ht.bucket_count :=
        Nat.mod_lt _ (by omega)
      have hidxl : hash k % ht.bucket_count < ht.table.length := by
        rw [hlen]
        exact hidx
      have hnomem : ∀ e ∈ ht.bucket (hash k % ht.bucket_count), ¬ k = e.1 := by
        rw [scanChain_eq_chainFind] at hscan
        exact (chainFind_eq_none_iff _ _).mp hscan
      simp only [hashtable.insert, hscan]
      have hbkt : ∀ j,
          (({ ht with
              table := ht.table.set (hash k % ht.bucket_count)
                (ht.bucket (hash k % ht.bucket_count) ++ [(k, v)]),
              count := ht.count + 1 } : hashtable K V)).bucket j =
            if j = hash k % ht.bucket_count then
              ht.bucket (hash k % ht.bucket_count) ++ [(k, v)]
            else ht.bucket j := by
        intro j
        by_cases hj : j = hash k % ht.bucket_count
        · subst hj
          simp only [hashtable.bucket, if_pos rfl]
          exact getD_set_self _ _ _ _ hidxl
        · rw [if_neg hj]
          simp only [hashtable.bucket]
          exact getD_set_ne _ _ _ _ _ (fun h => hj h.symm)
      refine ⟨⟨by simpa using hlen, hbc, ?_⟩, ?_, ?_⟩
      · show ht.count + 1 = _
        have hlen' : (ht.table.set (hash k % ht.bucket_count)
            (ht.bucket (hash k % ht.bucket_count) ++ [(k, v)])).length
              = ht.bucket_count := by
          simpa using hlen
        have e1 : sumLens ({ ht with
            table := ht.table.set (hash k % ht.bucket_count)
              (ht.bucket (hash k % ht.bucket_count) ++ [(k, v)]),
            count := ht.count + 1 } : hashtable K V)
            = ((ht.table.set (hash k % ht.bucket_count)
                (ht.bucket (hash k % ht.bucket_count) ++ [(k, v)])).map
                  List.length).sum :=
          sumLens_eq_table_sum _ hlen'
        have e2 := sum_map_set ht.table (hash k % ht.bucket_count)
          (ht.bucket (hash k % ht.bucket_count) ++ [(k, v)]) hidxl
        have e3 : ht.table.getD (hash k % ht.bucket_count) []
            = ht.bucket (hash k % ht.bucket_count) := rfl
        have e4 : sumLens ht = (ht.table.map List.length).sum :=
          sumLens_eq_table_sum ht hlen
        rw [e3, List.length_append] at e2
        simp only [List.length_cons, List.length_nil] at e2
        omega
      · intro b hb2 e he
        rw [hbkt b] at he
        by_cases hb3 : b = hash k % ht.bucket_count
        · subst hb3
          rw [if_pos rfl] at he
          rcases List.mem_append.mp he with h1 | h1
          · exact hplace _ hb2 e h1
          · have he2 : e = (k, v) := by simpa using h1
            subst he2
            rfl
        · rw [if_neg hb3] at he
          exact hplace b hb2 e he
      · intro b hb2
        rw [hbkt b]
        by_cases hb3 : b = hash k % ht.bucket_count
        · subst hb3
          rw [if_pos rfl, List.map_append]
          refine List.Nodup.append (hnodup _ hidx) (by simp) ?_
          intro a ha ha2
          have hak : a = k := by simpa using ha2
          subst hak
          obtain ⟨e, he, hek⟩ := List.mem_map.mp ha
          exact hnomem e he hek.symm
        · rw [if_neg hb3]
          exact hnodup b hb2

lemma tableInv_erase (hash : K → Nat) (ht : hashtable K V) (k : K)
    (hinv : TableInv hash ht) : TableInv hash (ht.erase hash k) := by
  obtain ⟨⟨hlen, hbc, hsum⟩, hplace, hnodup⟩ := hinv
  have hidx : hash k % ht.bucket_count < ht.bucket_count :=
    Nat.mod_lt _ (by omega)
  have hidxl : hash k % ht.bucket_count < ht.table.length := by
    rw [hlen]
    exact hidx
  have hsub := eraseChain_sublist k (ht.bucket (hash k % ht.bucket_count))
  have hlenle := hsub.length_le
  have hbkt : ∀ j, (ht.erase hash k).bucket j =
      if j = hash k % ht.bucket_count then
        eraseChain k (ht.bucket (hash k % ht.bucket_count))
      else ht.bucket j := by
    intro j
    by_cases hj : j = hash k % ht.bucket_count
    · subst hj
      simp only [hashtable.erase, hashtable.bucket, if_pos rfl]
      exact getD_set_self _ _ _ _ hidxl
    · rw [if_neg hj]
      simp only [hashtable.erase, hashtable.bucket]
      exact getD_set_ne _ _ _ _ _ (fun h => hj h.symm)
  refine ⟨⟨by simpa [hashtable.erase] using hlen, hbc, ?_⟩, ?_, ?_⟩
  · show ht.count - ((ht.bucket (hash k % ht.bucket_count)).length -
        (eraseChain k (ht.bucket (hash k % ht.bucket_count))).length)
        = sumLens (ht.erase hash k)
    have hlen' : (ht.table.set (hash k % ht.bucket_count)
        (eraseChain k (ht.bucket (hash k % ht.bucket_count)))).length
          = ht.bucket_count := by
      simpa using hlen
    have e1 : sumLens (ht.erase hash k)
        = ((ht.table.set (hash k % ht.bucket_count)
            (eraseChain k (ht.bucket (hash k % ht.bucket_count)))).map
              List.length).sum :=
      sumLens_eq_table_sum _ hlen'
    have e2 := sum_map_set ht.table (hash k % ht.bucket_count)
      (eraseChain k (ht.bucket (hash k % ht.bucket_count))) hidxl
    have e3 : ht.table.getD (hash k % ht.bucket_count) []
        = ht.bucket (hash k % ht.bucket_count) := rfl
    have e4 : sumLens ht = (ht.table.map List.length).sum :=
      sumLens_eq_table_sum ht hlen
    rw [e3] at e2
    omega
  · intro b hb2 e he
    rw [hbkt b] at he
    by_cases hb3 : b = hash k % ht.bucket_count
    · subst hb3
      rw [if_pos rfl] at he
      exact hplace _ hidx e (hsub.subset he)
    · rw [if_neg hb3] at he
      exact hplace b hb2 e he
  · intro b hb2
    rw [hbkt b]
    by_cases hb3 : b = hash k % ht.bucket_count
    · subst hb3
      rw [if_pos rfl]
      exact List.Nodup.sublist (hsub.map Prod.fst) (hnodup _ hidx)
    · rw [if_neg hb3]
      exact hnodup b hb2

lemma reachable_tableInv (hash : K → Nat) (ht : hashtable K V)
    (hr : Reachable hash ht) : TableInv hash ht := by
  induction hr with
  | make buckets hb => exact tableInv_make hash buckets hb
  | insert ht k v _ ih => exact tableInv_insert hash ht k v ih
  | erase ht k _ ih => exact tableInv_erase hash ht k ih

/-- C9: in every table reachable from the constructor by insert and
erase, the count equals the sum of all chain lengths, and every stored
entry sits in the bucket its key hashes to. -/
theorem C9_reachable_invariants (hash : K → Nat) (ht : hashtable K V)
    (hr : Reachable hash ht) :
    ht.count = sumLens ht ∧
    ∀ b, b < ht.bucket_count → ∀ e ∈ ht.bucket b,
      hash e.1 % ht.bucket_count = b := by
  obtain ⟨⟨_, _, hsum⟩, hplace, _⟩ := reachable_tableInv hash ht hr
  exact ⟨hsum, hplace⟩

/-- C9 witness: the concrete table reached by three inserts. -/
theorem C9_reachable_invariants_witness :
    exTable.count = sumLens exTable ∧
    ∀ b, b < exTable.bucket_count → ∀ e ∈ exTable.bucket b,
      exHash e.1 % exTable.bucket_count = b :=
  C9_reachable_invariants exHash exTable
    (Reachable.insert _ 3 30 (Reachable.insert _ 5 20
      (Reachable.insert _ 1 10 (Reachable.make 4 (by omega)))))

/-- C4: erasing a present key removes exactly the one entry of its
chain whose key compares equal (decomposed explicitly: the first and
only match), decrements the count by exactly one, makes a subsequent
find return end(), and leaves every other key's lookup unchanged. -/
theorem C4_erase_present_key (hash : K → Nat) (ht : hashtable K V) (k : K)
    (v0 : V) (hinv : TableInv hash ht)
    (hfound : ht.lookup hash k = some v0) :
    (∃ l1 l2, ht.bucket (hash k % ht.bucket_count) = l1 ++ (k, v0) :: l2 ∧
      (∀ e ∈ l1, ¬ k = e.1) ∧
      (ht.erase hash k).bucket (hash k % ht.bucket_count) = l1 ++ l2) ∧
    (ht.erase hash k).count + 1 = ht.count ∧
    (ht.erase hash k).find hash k = (ht.erase hash k).endIt ∧
    (∀ k', ¬ k' = k →
      (ht.erase hash k).lookup hash k' = ht.lookup hash k') := by
  obtain ⟨⟨hlen, hbc, hsum⟩, hplace, hnodup⟩ := hinv
  have hfound' : chainLookup k (ht.bucket (hash k % ht.bucket_count))
      = some v0 := hfound
  obtain ⟨l1, l2, hb, hl1⟩ := chainLookup_some_decomp k v0 _ hfound'
  have hidx : hash k % ht.bucket_count < ht.bucket_count :=
    Nat.mod_lt _ (by omega)
  have hidxl : hash k % ht.bucket_count < ht.table.length := by
    rw [hlen]
    exact hidx
  have hnd := hnodup _ hidx
  rw [hb, List.map_append] at hnd
  have hkl2 : ∀ e ∈ l2, ¬ k = e.1 := by
    intro e he hke
    have hmem : k ∈ l2.map Prod.fst := List.mem_map.mpr ⟨e, he, hke.symm⟩
    have hnd2 := hnd.of_append_right
    simp only [List.map_cons] at hnd2
    exact (List.nodup_cons.mp hnd2).1 hmem
  have herase : eraseChain k (ht.bucket (hash k % ht.bucket_count))
      = l1 ++ l2 := by
    rw [hb, eraseChain_append, eraseChain_of_no_match k l1 hl1]
    have h1 : eraseChain k ((k, v0) :: l2) = eraseChain k l2 := by
      simp [eraseChain]
    rw [h1, eraseChain_of_no_match k l2 hkl2]
  have hbucket_erase : (ht.erase hash k).bucket (hash k % ht.bucket_count)
      = l1 ++ l2 := by
    simp only [hashtable.erase, hashtable.bucket]
    rw [getD_set_self _ _ _ _ hidxl]
    exact herase
  have hblen : (ht.bucket (hash k % ht.bucket_count)).length
      = l1.length + l2.length + 1 := by
    rw [hb]
    simp [List.length_append]
    omega
  have hcount_ge : 1 ≤ ht.count := by
    have h2 := bucket_length_le_sumLens ht _ hidx
    omega
  have hcount_eq : (ht.erase hash k).count + 1 = ht.count := by
    show ht.count - ((ht.bucket (hash k % ht.bucket_count)).length -
        (eraseChain k (ht.bucket (hash k % ht.bucket_count))).length) + 1
      = ht.count
    rw [herase, hblen]
    have hll : (l1 ++ l2).length = l1.length + l2.length := by
      simp [List.length_append]
    rw [hll]
    omega
  have hlookup_none : chainLookup k ((ht.erase hash k).bucket
      (hash k % (ht.erase hash k).bucket_count)) = none := by
    show chainLookup k ((ht.erase hash k).bucket
      (hash k % ht.bucket_count)) = none
    rw [hbucket_erase, ← herase]
    exact chainLookup_eraseChain_self k _
  have hfind : (ht.erase hash k).find hash k = (ht.erase hash k).endIt := by
    have hcf : chainFind k ((ht.erase hash k).bucket
        (hash k % (ht.erase hash k).bucket_count)) = none :=
      (chainFind_eq_none_iff _ _).mpr
        ((chainLookup_eq_none_iff _ _).mp hlookup_none)
    simp only [hashtable.find, hcf]
  refine ⟨⟨l1, l2, hb, hl1, hbucket_erase⟩, hcount_eq, hfind, ?_⟩
  intro k' hk'
  show chainLookup k' ((ht.erase hash k).bucket
      (hash k' % ht.bucket_count)) = chainLookup k' (ht.bucket
      (hash k' % ht.bucket_count))
  by_cases hsame : hash k' % ht.bucket_count = hash k % ht.bucket_count
  · rw [hsame, hbucket_erase, ← herase]
    exact chainLookup_eraseChain_ne k k' hk' _
  · have hne2 : hash k % ht.bucket_count ≠ hash k' % ht.bucket_count :=
      fun h => hsame h.symm
    simp only [hashtable.erase, hashtable.bucket]
    rw [getD_set_ne _ _ _ _ _ hne2]

/-- C4 witness: erasing key 5 (value 20, second entry of the collision
chain in bucket 1) from the concrete table. -/
theorem C4_erase_present_key_witness :
    (TableInv exHash exTable ∧ exTable.lookup exHash 5 = some 20) ∧
    ((∃ l1 l2,
        exTable.bucket (exHash 5 % exTable.bucket_count)
          = l1 ++ (5, 20) :: l2 ∧
        (∀ e ∈ l1, ¬ (5 : Nat) = e.1) ∧
        (exTable.erase exHash 5).bucket (exHash 5 % exTable.bucket_count)
          = l1 ++ l2) ∧
      (exTable.erase exHash 5).count + 1 = exTable.count ∧
      (exTable.erase exHash 5).find exHash 5 = (exTable.erase exHash 5).endIt ∧
      (∀ k', ¬ k' = (5 : Nat) →
        (exTable.erase exHash 5).lookup exHash k'
          = exTable.lookup exHash k')) :=
  ⟨⟨⟨⟨by decide, by decide, by decide⟩, by decide, by decide⟩, by decide⟩,
    C4_erase_present_key exHash exTable 5 20
      ⟨⟨by decide, by decide, by decide⟩, by decide, by decide⟩ (by decide)⟩

lemma bucketPositions_eq_nil (ht : hashtable K V) (b : Nat)
    (h : (ht.bucket b).isEmpty) : bucketPositions ht b = [] := by
  unfold bucketPositions
  rw [List.isEmpty_iff.mp h]
  rfl

lemma tailPositions_cons (ht : hashtable K V) (b : Nat)
    (hb : b < ht.bucket_count) :
    tailPositions ht b = bucketPositions ht b ++ tailPositions ht (b + 1) := by
  unfold tailPositions
  have h1 : ht.bucket_count - b = (ht.bucket_count - (b + 1)) + 1 := by omega
  rw [h1, List.range'_succ, List.flatMap_cons]

lemma tailPositions_out (ht : hashtable K V) (b : Nat)
    (hb : ht.bucket_count ≤ b) : tailPositions ht b = [] := by
  unfold tailPositions
  have h1 : ht.bucket_count - b = 0 := by omega
  rw [h1]
  rfl

lemma tailPositions_skip (ht : hashtable K V) :
    ∀ n b, (∀ l, b ≤ l → l < b + n → (ht.bucket l).isEmpty) →
      tailPositions ht b = tailPositions ht (b + n)
  | 0, b, _ => rfl
  | n + 1, b, h => by
      by_cases hb : b < ht.bucket_count
      · rw [tailPositions_cons ht b hb,
          bucketPositions_eq_nil ht b (h b (Nat.le_refl b) (by omega)),
          List.nil_append]
        have hrec := tailPositions_skip ht n (b + 1)
          (fun l hl hl2 => h l (by omega) (by omega))
        have harith : b + 1 + n = b + (n + 1) := by omega
        rw [hrec, harith]
      · rw [tailPositions_out ht b (by omega),
          tailPositions_out ht (b + (n + 1)) (by omega)]

lemma allPositions_eq_tailPositions (ht : hashtable K V) :
    allPositions ht = tailPositions ht 0 := by
  unfold allPositions tailPositions
  rw [List.range_eq_range', Nat.sub_zero]

lemma bucketPositions_eq_head (ht : hashtable K V) (j : Nat) :
    bucketPositions ht j
      = (List.range' 0 ((ht.bucket j).length - 0)).map (fun q => ⟨j, q⟩) := by
  unfold bucketPositions
  rw [List.range_eq_range', Nat.sub_zero]

lemma posFrom_zero (ht : hashtable K V) (j : Nat) (hj : j < ht.bucket_count) :
    posFrom ht j 0 = tailPositions ht j := by
  unfold posFrom
  rw [tailPositions_cons ht j hj, ← bucketPositions_eq_head]

lemma allPositions_eq_posFrom (ht : hashtable K V) (j : Nat)
    (hj : j < ht.bucket_count)
    (hpre : ∀ l, l < j → (ht.bucket l).isEmpty) :
    allPositions ht = posFrom ht j 0 := by
  rw [allPositions_eq_tailPositions, posFrom_zero ht j hj]
  have h := tailPositions_skip ht j 0 (fun l hl hl2 => hpre l (by omega))
  simpa using h

lemma allPositions_eq_nil (ht : hashtable K V)
    (h : ∀ l, l < ht.bucket_count → (ht.bucket l).isEmpty) :
    allPositions ht = [] := by
  rw [allPositions_eq_tailPositions]
  have hs := tailPositions_skip ht ht.bucket_count 0
    (fun l hl hl2 => h l (by omega))
  rw [hs, tailPositions_out ht (0 + ht.bucket_count) (by omega)]

lemma posFrom_cons (ht : hashtable K V) (b p : Nat)
    (hp : p < (ht.bucket b).length) :
    posFrom ht b p = ⟨b, p⟩ :: posFrom ht b (p + 1) := by
  unfold posFrom
  have h1 : (ht.bucket b).length - p
      = ((ht.bucket b).length - (p + 1)) + 1 := by omega
  rw [h1, List.range'_succ]
  simp only [List.map_cons, List.cons_append]

lemma posFrom_end (ht : hashtable K V) (b : Nat) :
    posFrom ht b (ht.bucket b).length = tailPositions ht (b + 1) := by
  unfold posFrom
  rw [Nat.sub_self]
  have h0 : List.range' (ht.bucket b).length 0 = ([] : List Nat) := rfl
  rw [h0]
  simp

lemma endIt_of_last (ht : hashtable K V) (b : Nat) (hb : b < ht.bucket_count)
    (hne : ¬(ht.bucket b).isEmpty = true)
    (hafter : ∀ l, b < l → l < ht.bucket_count → (ht.bucket l).isEmpty) :
    ht.endIt = ⟨b, ⟨b, (ht.bucket b).length⟩⟩ := by
  show endFrom ht (ht.bucket_count - 1) = _
  rw [endFrom_eq, lastNonempty_mk ht (ht.bucket_count - 1) b (by omega) hne
    (fun l hl hl2 => hafter l hl (by omega))]

lemma entry_ne_endIt (ht : hashtable K V) (b p : Nat)
    (hb : b < ht.bucket_count) (hp : p < (ht.bucket b).length) :
    ¬ iterEq ⟨b, ⟨b, p⟩⟩ ht.endIt = true := by
  have hbne : ¬(ht.bucket b).isEmpty = true := by
    intro h
    rw [List.isEmpty_iff.mp h] at hp
    simp at hp
  have hend := endFrom_eq ht (ht.bucket_count - 1)
  cases hln : lastNonempty ht (ht.bucket_count - 1) with
  | none =>
      exact absurd ((lastNonempty_eq_none ht _).mp hln b (by omega)) hbne
  | some j =>
      obtain ⟨hjne, hjle, hjafter⟩ := lastNonempty_eq_some ht _ j hln
      intro hiter
      have hendj : ht.endIt = ⟨j, ⟨j, (ht.bucket j).length⟩⟩ := by
        show endFrom ht (ht.bucket_count - 1) = _
        rw [hend, hln]
      rw [hendj] at hiter
      have hentry : (⟨b, p⟩ : EntryPos) = ⟨j, (ht.bucket j).length⟩ := by
        simpa [iterEq] using hiter
      have hbj : b = j ∧ p = (ht.bucket j).length := by
        simpa [EntryPos.mk.injEq] using hentry
      obtain ⟨hbj1, hbj2⟩ := hbj
      subst hbj1
      omega

lemma inc_mid (ht : hashtable K V) (b p : Nat)
    (hlen : p + 1 < (ht.bucket b).length) :
    inc ht ⟨b, ⟨b, p⟩⟩ = ⟨b, ⟨b, p + 1⟩⟩ := by
  have hbne : ¬(ht.bucket b).isEmpty = true := by
    intro h
    rw [List.isEmpty_iff.mp h] at hlen
    simp at hlen
  have hneq : ¬ (⟨b, p + 1⟩ : EntryPos) = ⟨b, (ht.bucket b).length⟩ := by
    intro h
    have h2 := congrArg EntryPos.pos h
    simp only at h2
    omega
  simp only [inc]
  rw [if_neg hbne, if_neg hneq]

lemma inc_last (ht : hashtable K V) (b p : Nat)
    (hbne : ¬(ht.bucket b).isEmpty = true)
    (hp : p + 1 = (ht.bucket b).length) :
    inc ht ⟨b, ⟨b, p⟩⟩ =
      match scanUp ht b (ht.bucket_count - b) with
      | some none => ht.endIt
      | some (some j) => ⟨j, ⟨j, 0⟩⟩
      | none => ⟨b, ⟨b, p⟩⟩ := by
  simp only [inc]
  rw [if_neg hbne, if_pos (show (⟨b, p + 1⟩ : EntryPos)
    = ⟨b, (ht.bucket b).length⟩ by rw [hp])]

lemma visited_of_at_end (ht : hashtable K V) (it : Iter) (fuel : Nat)
    (h : iterEq it ht.endIt = true) : visited ht fuel it = [] := by
  cases fuel with
  | zero => rfl
  | succ fuel => simp [visited, h]

lemma length_allPositions (ht : hashtable K V) :
    (allPositions ht).length = sumLens ht := by
  unfold allPositions sumLens
  rw [List.length_flatMap]
  congr 1
  apply List.map_congr_left
  intro b _
  unfold bucketPositions
  simp [Function.comp]

lemma nodup_allPositions (ht : hashtable K V) : (allPositions ht).Nodup := by
  unfold allPositions
  rw [List.nodup_flatMap]
  constructor
  · intro b _
    unfold bucketPositions
    refine List.Nodup.map ?_ (List.nodup_range _)
    intro x y hxy
    simpa using congrArg EntryPos.pos hxy
  · refine (List.pairwise_lt_range ht.bucket_count).imp ?_
    intro a b hab
    show ∀ ⦃e : EntryPos⦄, e ∈ bucketPositions ht a →
      e ∈ bucketPositions ht b → False
    intro e hea heb
    unfold bucketPositions at hea heb
    obtain ⟨pa, _, hpa⟩ := List.mem_map.mp hea
    obtain ⟨pb, _, hpb⟩ := List.mem_map.mp heb
    have h1 := congrArg EntryPos.bucket hpa
    have h2 := congrArg EntryPos.bucket hpb
    simp only at h1 h2
    omega

lemma map_getElem?_range {α : Type _} :
    ∀ l : List α, (List.range l.length).map (fun p => l[p]?) = l.map some
  | [] => rfl
  | x :: xs => by
      rw [List.length_cons, List.range_succ_eq_map]
      simp only [List.map_cons, List.map_map]
      have hcomp : ((fun p => (x :: xs)[p]?) ∘ Nat.succ)
          = fun p => xs[p]? := by
        funext p
        simp
      rw [hcomp, map_getElem?_range xs]
      simp

lemma map_derefPos_allPositions (ht : hashtable K V) :
    (allPositions ht).map (derefPos ht) = (allEntries ht).map some := by
  unfold allPositions allEntries
  rw [List.map_flatMap, List.map_flatMap]
  have hfun : (fun b => (bucketPositions ht b).map (derefPos ht))
      = fun b => (ht.bucket b).map some := by
    funext b
    unfold bucketPositions
    rw [List.map_map]
    have hcomp : (derefPos ht ∘ fun p => (⟨b, p⟩ : EntryPos))
        = fun p => (ht.bucket b)[p]? := by
      funext p
      rfl
    rw [hcomp, map_getElem?_range]
  rw [hfun]

lemma visited_eq_posFrom (ht : hashtable K V) :
    ∀ fuel b p, b < ht.bucket_count → p < (ht.bucket b).length →
      (posFrom ht b p).length ≤ fuel →
      visited ht fuel ⟨b, ⟨b, p⟩⟩ = posFrom ht b p := by
  intro fuel
  induction fuel with
  | zero =>
      intro b p hb hp hfuel
      rw [posFrom_cons ht b p hp] at hfuel
      simp at hfuel
  | succ fuel ih =>
      intro b p hb hp hfuel
      have hne := entry_ne_endIt ht b p hb hp
      have hbne : ¬(ht.bucket b).isEmpty = true := by
        intro h
        rw [List.isEmpty_iff.mp h] at hp
        simp at hp
      rw [posFrom_cons ht b p hp]
      simp only [visited]
      rw [if_neg hne]
      congr 1
      rcases Nat.lt_or_ge (p + 1) (ht.bucket b).length with hlt | hge
      · rw [inc_mid ht b p hlt]
        apply ih b (p + 1) hb hlt
        rw [posFrom_cons ht b p hp, List.length_cons] at hfuel
        omega
      · have hp1 : p + 1 = (ht.bucket b).length := by omega
        rw [inc_last ht b p hbne hp1]
        have hple : posFrom ht b (p + 1) = tailPositions ht (b + 1) := by
          rw [hp1, posFrom_end]
        rcases scanUp_spec ht (ht.bucket_count - b) b (by omega) hb with
          ⟨hs, hafter⟩ | ⟨j, hs, hj1, hj2, hj3, hj4⟩
        · rw [hs]
          show visited ht fuel ht.endIt = posFrom ht b (p + 1)
          rw [visited_endIt, hple]
          have hskip := tailPositions_skip ht (ht.bucket_count - (b + 1))
            (b + 1) (fun l hl hl2 => hafter l (by omega) (by omega))
          rw [hskip, tailPositions_out ht _ (by omega)]
        · rw [hs]
          show visited ht fuel ⟨j, ⟨j, 0⟩⟩ = posFrom ht b (p + 1)
          have hjlen : 0 < (ht.bucket j).length := by
            rcases Nat.eq_zero_or_pos (ht.bucket j).length with hz | hpos
            · exact absurd (List.isEmpty_iff.mpr (List.length_eq_zero.mp hz))
                hj3
            · exact hpos
          have heq2 : posFrom ht b (p + 1) = posFrom ht j 0 := by
            rw [hple, posFrom_zero ht j hj2]
            have hskip := tailPositions_skip ht (j - (b + 1)) (b + 1)
              (fun l hl hl2 => hj4 l (by omega) (by omega))
            have harith : b + 1 + (j - (b + 1)) = j := by omega
            rw [harith] at hskip
            exact hskip
          have hfuel2 : (posFrom ht j 0).length ≤ fuel := by
            rw [posFrom_cons ht b p hp, List.length_cons] at hfuel
            rw [← heq2]
            omega
          rw [ih j 0 hj2 hjlen hfuel2, heq2]

/-- C1: starting from begin() and repeatedly advancing until end() is
reached, the iteration of a well-formed table (count equal to the sum
of the chain lengths) visits exactly count chain positions, each
position exactly once, in bucket-then-chain order, and dereferencing
the visited cursors yields exactly the stored entries — for every
distribution of entries over the buckets. -/
theorem C1_iteration_visits_all (ht : hashtable K V)
    (hbc : 1 ≤ ht.bucket_count) (hcount : ht.count = sumLens ht)
    (extra : Nat) :
    visited ht (ht.count + extra) ht.beginIt = allPositions ht ∧
    (visited ht (ht.count + extra) ht.beginIt).length = ht.count ∧
    (visited ht (ht.count + extra) ht.beginIt).Nodup ∧
    (visited ht (ht.count + extra) ht.beginIt).map (derefPos ht)
      = (allEntries ht).map some := by
  have hmain : visited ht (ht.count + extra) ht.beginIt = allPositions ht := by
    rcases beginFrom_spec ht (ht.bucket_count - 1) 0 with ⟨H, hb⟩ |
      ⟨j, _, hj2, hj3, hj4, hb⟩
    · have hempty_all : ∀ l, l < ht.bucket_count → (ht.bucket l).isEmpty :=
        fun l hl => H l (Nat.zero_le _) (by omega)
      have hbeg : ht.beginIt = ⟨ht.bucket_count - 1,
          ⟨ht.bucket_count - 1, (ht.bucket (ht.bucket_count - 1)).length⟩⟩ := by
        show beginFrom ht 0 (ht.bucket_count - 1) = _
        rw [hb]
        have h0 : 0 + (ht.bucket_count - 1) = ht.bucket_count - 1 := by omega
        rw [h0]
      have hend : ht.endIt = ⟨0, ⟨ht.bucket_count - 1,
          (ht.bucket (ht.bucket_count - 1)).length⟩⟩ := by
        show endFrom ht (ht.bucket_count - 1) = _
        rw [endFrom_eq, (lastNonempty_eq_none ht _).mpr
          (fun l hl => hempty_all l (by omega))]
      have hiter : iterEq ht.beginIt ht.endIt = true := by
        rw [hbeg, hend]
        simp [iterEq]
      rw [visited_of_at_end ht _ _ hiter, allPositions_eq_nil ht hempty_all]
    · have hjlt : j < ht.bucket_count := by omega
      have hbeg : ht.beginIt = ⟨j, ⟨j, 0⟩⟩ := by
        show beginFrom ht 0 (ht.bucket_count - 1) = _
        exact hb
      have hjlen : 0 < (ht.bucket j).length := by
        rcases Nat.eq_zero_or_pos (ht.bucket j).length with hz | hpos
        · exact absurd (List.isEmpty_iff.mpr (List.length_eq_zero.mp hz)) hj3
        · exact hpos
      have hpos : allPositions ht = posFrom ht j 0 :=
        allPositions_eq_posFrom ht j hjlt (fun l hl => hj4 l (Nat.zero_le _) hl)
      have hflen : (posFrom ht j 0).length ≤ ht.count + extra := by
        rw [← hpos, length_allPositions]
        omega
      rw [hbeg, hpos]
      exact visited_eq_posFrom ht (ht.count + extra) j 0 hjlt hjlen hflen
  refine ⟨hmain, ?_, ?_, ?_⟩
  · rw [hmain, length_allPositions, hcount]
  · rw [hmain]
    exact nodup_allPositions ht
  · rw [hmain]
    exact map_derefPos_allPositions ht

/-- C1 witness: the concrete table (collision chain in bucket 1, entry
in bucket 3, two empty buckets) iterated with fuel equal to its
count. -/
theorem C1_iteration_visits_all_witness :
    (1 ≤ exTable.bucket_count ∧ exTable.count = sumLens exTable) ∧
    (visited exTable (exTable.count + 0) exTable.beginIt
        = allPositions exTable ∧
      (visited exTable (exTable.count + 0) exTable.beginIt).length
        = exTable.count ∧
      (visited exTable (exTable.count + 0) exTable.beginIt).Nodup ∧
      (visited exTable (exTable.count + 0) exTable.beginIt).map
          (derefPos exTable) = (allEntries exTable).map some) :=
  ⟨⟨by decide, by decide⟩,
    C1_iteration_visits_all exTable (by decide) (by decide) 0⟩
